import Mathlib

/-!
Verification of the pronunciation-accuracy scoring algorithm of the
shadow-en repository (`src/utils/helpers.ts`): the tokenizer
(`normalizeText`), the word-similarity helper (`calculateWordSimilarity`,
a Levenshtein-distance DP), and the two-pass exact/fuzzy aligner
(`calculateTextAccuracy`).

Strings are modelled as Lean `String` (lists of characters); JavaScript
numbers arising in the algorithm are exact here: the match count is a
natural number, similarities are rationals, and the final score is an
integer (`round` on ℚ is `Math.round` for the non-negative values that
occur).  The JavaScript character classes are modelled on code points:
`\w` without the unicode flag is exactly `[A-Za-z0-9_]`, `\s` is the
ECMAScript whitespace list, and `toLowerCase` is modelled on the ASCII
range `A`–`Z` (the only case mapping exercised by this repository).
-/

namespace ShadowEn

/-- ASCII lower-casing, modelling `String.prototype.toLowerCase` on the
`A`–`Z` range (code points 65–90 map to 97–122, all else unchanged). -/
def jsToLower (c : Char) : Char :=
  if 65 ≤ c.toNat ∧ c.toNat ≤ 90 then Char.ofNat (c.toNat + 32) else c

/-- The JavaScript regex class `\w` (no unicode flag): `[A-Za-z0-9_]`. -/
def isWordChar (c : Char) : Bool :=
  decide ((97 ≤ c.toNat ∧ c.toNat ≤ 122) ∨ (65 ≤ c.toNat ∧ c.toNat ≤ 90) ∨
    (48 ≤ c.toNat ∧ c.toNat ≤ 57) ∨ c.toNat = 95)

/-- The JavaScript regex class `\s`: the ECMAScript WhiteSpace and
LineTerminator code points. -/
def isSpaceChar (c : Char) : Bool :=
  decide (c.toNat ∈ [9, 10, 11, 12, 13, 32, 160, 5760, 8192, 8193, 8194,
    8195, 8196, 8197, 8198, 8199, 8200, 8201, 8202, 8232, 8233, 8239,
    8287, 12288, 65279])

/-- Accumulator-style splitter: `splitWordsAux l acc` emits the maximal
runs of non-whitespace characters of `acc.reverse ++ l`.  Together with
`splitWords` this models `text.split(/\s+/).filter(w => w.length > 0)`:
JavaScript `split(/\s+/)` yields the runs between whitespace (with empty
strings at a leading/trailing separator), and the `filter` drops the
empty ones, leaving exactly the maximal non-whitespace runs. -/
def splitWordsAux : List Char → List Char → List (List Char)
  | [], acc => if acc = [] then [] else [acc.reverse]
  | c :: cs, acc =>
      if isSpaceChar c then
        if acc = [] then splitWordsAux cs [] else acc.reverse :: splitWordsAux cs []
      else splitWordsAux cs (c :: acc)

/-- Split a character list into its maximal non-whitespace runs
(see `splitWordsAux`). -/
def splitWords (l : List Char) : List (List Char) :=
  splitWordsAux l []

/-- The tokenizer of `calculateTextAccuracy` (`helpers.ts` lines 67–73):
lower-case, remove every character matching `[^\w\s]`, split on runs of
whitespace and drop zero-length tokens. -/
def normalizeText (text : String) : List String :=
  (splitWords ((text.data.map jsToLower).filter
    (fun c => isWordChar c || isSpaceChar c))).map (fun w => String.mk w)

/-- One row-filling step of the edit-distance matrix of
`calculateWordSimilarity` (`helpers.ts` lines 136–148): given row `i` of
the matrix as the function `prev` (column `j` holds the distance between
the first `j` characters of `word1` and the first `i` of `word2`), this
computes row `i + 1`, whose column 0 is initialised to `i + 1` and whose
column `j + 1` is the source's
`if word2.charAt(i) === word1.charAt(j) then diagonal else
 min(diagonal + 1, left + 1, up + 1)`. -/
def dpRowGo (word1 word2 : List Char) (i : ℕ) (prev : ℕ → ℕ) : ℕ → ℕ
  | 0 => i + 1
  | j + 1 =>
      if word2.getD i 'a' = word1.getD j 'a' then prev j
      else
        min (prev j + 1)
          (min (dpRowGo word1 word2 i prev j + 1) (prev (j + 1) + 1))

/-- Row `i` of the edit-distance matrix, as a function of the column:
row 0 is `j ↦ j` (the initialisation loop of `helpers.ts` lines
131–133), and each further row is produced by `dpRowGo`. -/
def dpRowFun (word1 word2 : List Char) : ℕ → (ℕ → ℕ)
  | 0 => fun j => j
  | i + 1 => dpRowGo word1 word2 i (dpRowFun word1 word2 i)

/-- The final matrix entry `matrix[word2.length][word1.length]` of the
source DP: its edit distance between `word1` and `word2`. -/
def editDistance (word1 word2 : List Char) : ℕ :=
  dpRowFun word1 word2 word2.length word1.length

/-- `calculateWordSimilarity` (`helpers.ts` lines 121–153): guard the
empty cases, then `(maxLength - distance) / maxLength` as an exact
rational. -/
def calculateWordSimilarity (word1 word2 : String) : ℚ :=
  if word1.length = 0 then (if word2.length = 0 then 1 else 0)
  else if word2.length = 0 then 0
  else
    ((max word1.length word2.length : ℚ) -
      (editDistance word1.data word2.data : ℚ)) /
      (max word1.length word2.length : ℚ)

/-- JavaScript `Array.prototype.findIndex` with an index-aware callback:
`findIndexFrom p l s` scans `l`, whose first element sits at index `s`,
and returns the first index whose element satisfies `p`. -/
def findIndexFrom (p : ℕ → String → Bool) : List String → ℕ → Option ℕ
  | [], _ => none
  | a :: as, i => if p i a then some i else findIndexFrom p as (i + 1)

/-- One iteration of the exact pass of `calculateTextAccuracy`
(`helpers.ts` lines 84–93): find the first unused actual token exactly
equal to the expected word; on success increment the match count and
record the index as used. -/
def exactStep (actualWords : List String) (st : ℕ × List ℕ)
    (expectedWord : String) : ℕ × List ℕ :=
  match findIndexFrom
      (fun index actualWord => !decide (index ∈ st.2) && actualWord == expectedWord)
      actualWords 0 with
  | some idx => (st.1 + 1, idx :: st.2)
  | none => st

/-- The fuzzy-match condition of the fuzzy pass (`helpers.ts` lines
102–104): word similarity strictly above `0.6` (= `3/5`). -/
def fuzzySimCond (expectedWord actualWord : String) : Bool :=
  decide ((3 : ℚ) / 5 < calculateWordSimilarity expectedWord actualWord)

/-- One iteration of the fuzzy pass of `calculateTextAccuracy`
(`helpers.ts` lines 96–111): skip when the match count has reached the
number of expected words, otherwise find the first unused actual token
whose similarity to the expected word exceeds `0.6` and consume it. -/
def fuzzyStep (actualWords : List String) (total : ℕ) (st : ℕ × List ℕ)
    (expectedWord : String) : ℕ × List ℕ :=
  if total ≤ st.1 then st
  else
    match findIndexFrom
        (fun index actualWord =>
          !decide (index ∈ st.2) && fuzzySimCond expectedWord actualWord)
        actualWords 0 with
    | some idx => (st.1 + 1, idx :: st.2)
    | none => st

/-- The state `(matches, usedIndices)` after running the exact pass and
then the fuzzy pass of `calculateTextAccuracy` over the expected words. -/
def matchState (expectedWords actualWords : List String) : ℕ × List ℕ :=
  expectedWords.foldl (fuzzyStep actualWords expectedWords.length)
    (expectedWords.foldl (exactStep actualWords) (0, []))

/-- `calculateTextAccuracy` (`helpers.ts` lines 60–116): empty-input
guards, tokenize both inputs, run the two matching passes, and return
`Math.min(100, Math.round((matches / expectedWords.length) * 100))`. -/
def calculateTextAccuracy (expected actual : String) : ℤ :=
  if expected.data = [] ∨ actual.data = [] then 0
  else if (normalizeText expected).length = 0 then 0
  else
    min 100 (round (((matchState (normalizeText expected) (normalizeText actual)).1 : ℚ) /
      ((normalizeText expected).length : ℚ) * 100))

/-- The standard recursive reference definition of the unit-cost
Levenshtein distance (single-character insertion, deletion,
substitution), stated on prefix lengths: `levRef a b i j` is the
distance between the first `i` characters of `a` and the first `j`
characters of `b`; when both prefixes are non-empty it is the minimum of
a deletion, an insertion, and a substitution whose cost is 0 exactly
when the last characters agree.  This is the specification-side
reference against which the source's DP matrix is compared. -/
def levRef (a b : List Char) : ℕ → ℕ → ℕ
  | 0, j => j
  | i + 1, 0 => i + 1
  | i + 1, j + 1 =>
      min (levRef a b i (j + 1) + 1)
        (min (levRef a b (i + 1) j + 1)
          (levRef a b i j + (if a.getD i 'a' = b.getD j 'a' then 0 else 1)))

/-- The reference distance is at least the difference of the prefix
lengths (in both directions). -/
theorem levRef_lb (a b : List Char) (i j : ℕ) :
    i ≤ levRef a b i j + j ∧ j ≤ levRef a b i j + i := by
  induction i, j using levRef.induct a b with
  | case1 j => simp [levRef]
  | case2 i => simp [levRef]
  | case3 i j ih1 ih2 ih3 =>
      rw [levRef]
      split <;> omega

/-- The reference distance is at most the longer prefix length. -/
theorem levRef_le_max (a b : List Char) (i j : ℕ) :
    levRef a b i j ≤ max i j := by
  induction i, j using levRef.induct a b with
  | case1 j => simp [levRef]
  | case2 i => simp [levRef]
  | case3 i j ih1 ih2 ih3 =>
      rw [levRef]
      split <;> omega

/-- Extending the `b`-prefix by one character increases the reference
distance by at most one. -/
theorem levRef_right_succ_le (a b : List Char) (i j : ℕ) :
    levRef a b i (j + 1) ≤ levRef a b i j + 1 := by
  cases i with
  | zero => simp [levRef]
  | succ i =>
      simp only [levRef]
      split_ifs <;> omega

/-- Extending the `a`-prefix by one character increases the reference
distance by at most one. -/
theorem levRef_left_succ_le (a b : List Char) (i j : ℕ) :
    levRef a b (i + 1) j ≤ levRef a b i j + 1 := by
  cases j with
  | zero => cases i <;> simp [levRef]
  | succ j =>
      simp only [levRef]
      split_ifs <;> omega

/-- Extending the `b`-prefix by one character decreases the reference
distance by at most one. -/
theorem levRef_le_right_succ (a b : List Char) (i j : ℕ) :
    levRef a b i j ≤ levRef a b i (j + 1) + 1 := by
  induction i with
  | zero => simp [levRef]; omega
  | succ i ih =>
      have hU := levRef_left_succ_le a b i j
      simp only [levRef]
      split_ifs <;> omega

/-- Extending the `a`-prefix by one character decreases the reference
distance by at most one. -/
theorem levRef_le_left_succ (a b : List Char) (i j : ℕ) :
    levRef a b i j ≤ levRef a b (i + 1) j + 1 := by
  induction j with
  | zero => cases i <;> simp [levRef]
  | succ j ih =>
      have hU := levRef_right_succ_le a b i j
      simp only [levRef]
      split_ifs <;> omega

/-- The distance between a prefix of `a` and the empty prefix of `b` is
the length of that prefix. -/
theorem levRef_zero_right (a b : List Char) (i : ℕ) : levRef a b i 0 = i := by
  cases i <;> simp [levRef]

/-- Row `i`, column `j` of the source's DP matrix is exactly the
reference Levenshtein distance between the first `j` characters of
`word1` and the first `i` characters of `word2`. -/
theorem dpRowFun_eq_levRef (w1 w2 : List Char) (i : ℕ) :
    ∀ j, dpRowFun w1 w2 i j = levRef w1 w2 j i := by
  induction i with
  | zero =>
      intro j
      simp [dpRowFun, levRef_zero_right]
  | succ i ih =>
      intro j
      induction j with
      | zero => simp [dpRowFun, dpRowGo, levRef]
      | succ j ihj =>
          have hd1 := levRef_le_right_succ w1 w2 j i
          have hd2 := levRef_le_left_succ w1 w2 j i
          simp only [dpRowFun, dpRowGo] at ihj ⊢
          rw [ih j, ih (j + 1), ihj]
          conv_rhs => rw [levRef]
          by_cases hc : w2.getD i 'a' = w1.getD j 'a'
          · rw [if_pos hc, if_pos hc.symm]
            omega
          · rw [if_neg hc, if_neg (fun h => hc h.symm)]
            omega

/-- The final DP matrix entry consumed by `calculateWordSimilarity` is
the reference Levenshtein distance between the two words. -/
theorem editDistance_eq_levRef (w1 w2 : List Char) :
    editDistance w1 w2 = levRef w1 w2 w1.length w2.length :=
  dpRowFun_eq_levRef w1 w2 w2.length w1.length

/-- The edit distance of two words is at most the longer length. -/
theorem editDistance_le_max (w1 w2 : List Char) :
    editDistance w1 w2 ≤ max w1.length w2.length := by
  rw [editDistance_eq_levRef]
  exact levRef_le_max w1 w2 w1.length w2.length

/-- C7: the iterative (len(b)+1) × (len(a)+1) DP matrix of
`calculateWordSimilarity` computes exactly the classic unit-cost
Levenshtein distance as given by the standard recursive reference
definition `levRef`, and for `max(len(a), len(b)) > 0` the similarity
equals `(max(len(a), len(b)) − L(a, b)) / max(len(a), len(b))`. -/
theorem C7_dp_computes_reference_levenshtein :
    ∀ (a b : String),
      editDistance a.data b.data = levRef a.data b.data a.length b.length ∧
      (0 < max a.length b.length →
        calculateWordSimilarity a b =
          ((max a.length b.length : ℚ) -
            (levRef a.data b.data a.length b.length : ℚ)) /
            (max a.length b.length : ℚ)) := by
  intro a b
  have hed : editDistance a.data b.data = levRef a.data b.data a.length b.length :=
    editDistance_eq_levRef a.data b.data
  refine ⟨hed, ?_⟩
  intro h
  unfold calculateWordSimilarity
  split_ifs with h1 h2 h2
  · exfalso; omega
  · rw [h1]
    simp [levRef]
  · rw [h2, levRef_zero_right]
    simp
  · rw [hed]

/-- A witness for C7 at a concrete input pair. -/
theorem C7_dp_computes_reference_levenshtein_witness :
    0 < max ("kitten" : String).length ("sitting" : String).length ∧
      calculateWordSimilarity "kitten" "sitting" =
        ((max ("kitten" : String).length ("sitting" : String).length : ℚ) -
          (levRef ("kitten" : String).data ("sitting" : String).data
            ("kitten" : String).length ("sitting" : String).length : ℚ)) /
          (max ("kitten" : String).length ("sitting" : String).length : ℚ) :=
  ⟨by decide, (C7_dp_computes_reference_levenshtein "kitten" "sitting").2 (by decide)⟩

/-- C8: `calculateWordSimilarity` always returns a rational in
`[0, 1]`; it returns 1 when both words are empty and 0 when exactly one
of them is empty. -/
theorem C8_similarity_bounds :
    ∀ (a b : String),
      0 ≤ calculateWordSimilarity a b ∧ calculateWordSimilarity a b ≤ 1 ∧
      (a.length = 0 → b.length = 0 → calculateWordSimilarity a b = 1) ∧
      (a.length = 0 → 0 < b.length → calculateWordSimilarity a b = 0) ∧
      (0 < a.length → b.length = 0 → calculateWordSimilarity a b = 0) := by
  intro a b
  have hd := editDistance_le_max a.data b.data
  unfold calculateWordSimilarity
  split_ifs with h1 h2 h2
  · refine ⟨by norm_num, by norm_num, fun _ _ => rfl, ?_, ?_⟩ <;> intro ha hb <;> omega
  · refine ⟨le_refl 0, by norm_num, ?_, fun _ _ => rfl, ?_⟩ <;> intro ha hb <;> omega
  · refine ⟨le_refl 0, by norm_num, ?_, ?_, fun _ _ => rfl⟩ <;> intro ha hb <;> omega
  · have hM : 0 < max a.length b.length := by omega
    have hMq : (0 : ℚ) < (max a.length b.length : ℚ) := by exact_mod_cast hM
    have hdq : (editDistance a.data b.data : ℚ) ≤ (max a.length b.length : ℚ) := by
      exact_mod_cast hd
    refine ⟨?_, ?_, ?_, ?_, ?_⟩
    · exact div_nonneg (by linarith) (le_of_lt hMq)
    · rw [div_le_one hMq]
      have : (0 : ℚ) ≤ (editDistance a.data b.data : ℚ) := Nat.cast_nonneg _
      linarith
    · intro ha; exact absurd ha h1
    · intro ha; exact absurd ha h1
    · intro _ hb; exact absurd hb h2

/-- A witness for C8 at concrete inputs covering each guarded case. -/
theorem C8_similarity_bounds_witness :
    calculateWordSimilarity "" "" = 1 ∧ calculateWordSimilarity "" "a" = 0 ∧
      calculateWordSimilarity "a" "" = 0 :=
  ⟨(C8_similarity_bounds "" "").2.2.1 rfl rfl,
    (C8_similarity_bounds "" "a").2.2.2.1 rfl (by decide),
    (C8_similarity_bounds "a" "").2.2.2.2 (by decide) rfl⟩

/-- `findIndexFrom` only succeeds at an index inside the scanned list,
and the element found there satisfies the predicate. -/
theorem findIndexFrom_some (p : ℕ → String → Bool) :
    ∀ (l : List String) (s idx : ℕ), findIndexFrom p l s = some idx →
      s ≤ idx ∧ idx < s + l.length ∧ p idx (l.getD (idx - s) "") = true := by
  intro l
  induction l with
  | nil => intro s idx h; simp [findIndexFrom] at h
  | cons a as ih =>
      intro s idx h
      rw [findIndexFrom] at h
      by_cases hp : p s a
      · rw [if_pos hp] at h
        obtain rfl : s = idx := by simpa using h
        refine ⟨le_refl s, by simp, ?_⟩
        simpa using hp
      · rw [if_neg hp] at h
        obtain ⟨h1, h2, h3⟩ := ih (s + 1) idx h
        refine ⟨by omega, by simp; omega, ?_⟩
        have hrw : idx - s = (idx - (s + 1)) + 1 := by omega
        rw [hrw, List.getD_cons_succ]
        exact h3

/-- C6: the fuzzy pass counts a pair of tokens as a match only when
their word similarity strictly exceeds 0.6 (= 3/5): a pair with
similarity exactly 3/5 never satisfies the fuzzy condition, the pair
"cat"/"cot" has similarity 2/3 and does satisfy it, and whenever a
fuzzy-pass step consumes an actual token that token's similarity to the
expected word exceeds 3/5. -/
theorem C6_fuzzy_threshold_strict :
    (∀ (w a : String), calculateWordSimilarity w a = 3 / 5 → fuzzySimCond w a = false) ∧
    (calculateWordSimilarity "cat" "cot" = 2 / 3 ∧ fuzzySimCond "cat" "cot" = true) ∧
    (∀ (actualWords : List String) (total : ℕ) (st : ℕ × List ℕ) (w : String),
      fuzzyStep actualWords total st w ≠ st →
      ∃ idx, idx < actualWords.length ∧
        (3 : ℚ) / 5 < calculateWordSimilarity w (actualWords.getD idx "")) := by
  refine ⟨?_, ⟨of_decide_eq_true (by with_unfolding_all rfl),
      of_decide_eq_true (by with_unfolding_all rfl)⟩, ?_⟩
  · intro w a h
    simp only [fuzzySimCond, h, decide_eq_false_iff_not]
    exact lt_irrefl _
  · intro actualWords total st w hne
    rw [fuzzyStep] at hne
    by_cases htot : total ≤ st.1
    · rw [if_pos htot] at hne; exact absurd rfl hne
    · rw [if_neg htot] at hne
      cases hfind : findIndexFrom
          (fun index actualWord =>
            !decide (index ∈ st.2) && fuzzySimCond w actualWord) actualWords 0 with
      | none => rw [hfind] at hne; exact absurd rfl hne
      | some idx =>
          obtain ⟨-, h2, h3⟩ := findIndexFrom_some _ actualWords 0 idx hfind
          refine ⟨idx, by simpa using h2, ?_⟩
          simp only [Nat.sub_zero, Bool.and_eq_true, fuzzySimCond,
            decide_eq_true_eq] at h3
          exact h3.2

/-- A witness for C6: a pair at exactly the threshold, and a concrete
state change of the fuzzy pass. -/
theorem C6_fuzzy_threshold_strict_witness :
    fuzzySimCond "abcde" "abcxy" = false ∧
      (∃ idx, idx < (["cot"] : List String).length ∧
        (3 : ℚ) / 5 < calculateWordSimilarity "cat" ((["cot"] : List String).getD idx "")) :=
  ⟨C6_fuzzy_threshold_strict.1 "abcde" "abcxy"
      (of_decide_eq_true (by with_unfolding_all rfl)),
    C6_fuzzy_threshold_strict.2.2 ["cot"] 1 (0, []) "cat"
      (of_decide_eq_true (by with_unfolding_all rfl))⟩

/-- A word character is never a whitespace character. -/
theorem word_space_disjoint (c : Char) :
    isWordChar c = true → isSpaceChar c = false := by
  simp only [isWordChar, isSpaceChar, decide_eq_true_eq, decide_eq_false_iff_not]
  intro h
  simp only [List.mem_cons, List.not_mem_nil, or_false]
  omega

/-- Lower-casing fixes every whitespace character. -/
theorem space_jsToLower (c : Char) :
    isSpaceChar c = true → jsToLower c = c := by
  simp only [isSpaceChar, decide_eq_true_eq, List.mem_cons, List.not_mem_nil,
    or_false]
  intro h
  rw [jsToLower, if_neg]
  omega

/-- Every token emitted by `splitWordsAux` is a non-empty list whose
characters are non-whitespace and come from the accumulator or the
remaining input. -/
theorem splitWordsAux_mem :
    ∀ (l acc t : List Char), (∀ c ∈ acc, isSpaceChar c = false) →
      t ∈ splitWordsAux l acc →
      t ≠ [] ∧ ∀ c ∈ t, isSpaceChar c = false ∧ (c ∈ acc ∨ c ∈ l) := by
  intro l
  induction l with
  | nil =>
      intro acc t hacc ht
      rw [splitWordsAux] at ht
      by_cases ha : acc = []
      · rw [if_pos ha] at ht; simp at ht
      · rw [if_neg ha] at ht
        simp only [List.mem_cons, List.not_mem_nil, or_false] at ht
        subst ht
        refine ⟨by simpa using ha, fun c hc => ?_⟩
        have hm := List.mem_reverse.1 hc
        exact ⟨hacc c hm, Or.inl hm⟩
  | cons d ds ih =>
      intro acc t hacc ht
      rw [splitWordsAux] at ht
      by_cases hd : isSpaceChar d
      · rw [if_pos hd] at ht
        have hrec : t ∈ splitWordsAux ds [] →
            t ≠ [] ∧ ∀ c ∈ t, isSpaceChar c = false ∧ (c ∈ acc ∨ c ∈ d :: ds) := by
          intro hmem
          obtain ⟨h1, h2⟩ := ih [] t (by simp) hmem
          refine ⟨h1, fun c hc => ⟨(h2 c hc).1, Or.inr ?_⟩⟩
          rcases (h2 c hc).2 with h | h
          · simp at h
          · exact List.mem_cons_of_mem d h
        by_cases ha : acc = []
        · rw [if_pos ha] at ht
          exact hrec ht
        · rw [if_neg ha] at ht
          rcases List.mem_cons.1 ht with h | h
          · subst h
            refine ⟨by simpa using ha, fun c hc => ?_⟩
            have hm := List.mem_reverse.1 hc
            exact ⟨hacc c hm, Or.inl hm⟩
          · exact hrec h
      · rw [if_neg hd] at ht
        have hd' : isSpaceChar d = false := by simpa using hd
        have hacc' : ∀ c ∈ d :: acc, isSpaceChar c = false := by
          intro c hc
          rcases List.mem_cons.1 hc with rfl | hc
          · exact hd'
          · exact hacc c hc
        obtain ⟨h1, h2⟩ := ih (d :: acc) t hacc' ht
        refine ⟨h1, fun c hc => ?_⟩
        obtain ⟨hs, hm⟩ := h2 c hc
        refine ⟨hs, ?_⟩
        rcases hm with hm | hm
        · rcases List.mem_cons.1 hm with rfl | hm
          · exact Or.inr (List.mem_cons_self _ _)
          · exact Or.inl hm
        · exact Or.inr (List.mem_cons_of_mem d hm)

/-- The concatenation of the tokens of `splitWordsAux` is the
accumulator followed by the non-whitespace characters of the input, in
order. -/
theorem splitWordsAux_flatten :
    ∀ (l acc : List Char),
      (splitWordsAux l acc).flatten =
        acc.reverse ++ l.filter (fun c => !isSpaceChar c) := by
  intro l
  induction l with
  | nil =>
      intro acc
      rw [splitWordsAux]
      by_cases ha : acc = []
      · rw [if_pos ha]; subst ha; simp
      · rw [if_neg ha]; simp
  | cons d ds ih =>
      intro acc
      rw [splitWordsAux]
      by_cases hd : isSpaceChar d
      · rw [if_pos hd]
        by_cases ha : acc = []
        · rw [if_pos ha]; subst ha; simp [ih, List.filter_cons, hd]
        · rw [if_neg ha]; simp [ih, List.filter_cons, hd]
      · have hd' : isSpaceChar d = false := by simpa using hd
        rw [if_neg hd, ih (d :: acc)]
        simp [List.filter_cons, hd']

/-- Every token of `normalizeText` is non-empty and consists only of
word characters (`[A-Za-z0-9_]`). -/
theorem normalizeText_tokens (s : String) :
    ∀ t ∈ normalizeText s, t.data ≠ [] ∧ ∀ c ∈ t.data, isWordChar c = true := by
  intro t ht
  rw [normalizeText] at ht
  simp only [splitWords] at ht
  obtain ⟨w, hw, rfl⟩ := List.mem_map.1 ht
  obtain ⟨h1, h2⟩ := splitWordsAux_mem _ [] w (by simp) hw
  refine ⟨h1, fun c hc => ?_⟩
  obtain ⟨hs, hm⟩ := h2 c hc
  rcases hm with hm | hm
  · simp at hm
  · have hkeep := List.of_mem_filter hm
    simp only [hs, Bool.or_false] at hkeep
    exact hkeep

/-- The concatenation of the tokens of `normalizeText` is exactly the
sequence of word characters of the lower-cased input, in their original
left-to-right order. -/
theorem normalizeText_flatten (s : String) :
    ((normalizeText s).map String.data).flatten =
      (s.data.map jsToLower).filter isWordChar := by
  rw [normalizeText]
  simp only [splitWords, List.map_map]
  have hcomp : String.data ∘ (fun w : List Char => String.mk w) = id := rfl
  rw [hcomp, List.map_id, splitWordsAux_flatten]
  simp only [List.reverse_nil, List.nil_append, List.filter_filter]
  apply List.filter_congr
  intro c _
  by_cases hw : isWordChar c = true
  · simp [hw, word_space_disjoint c hw]
  · have hw' : isWordChar c = false := by simpa using hw
    simp [hw']

/-- A whitespace-only (or empty) input produces no tokens. -/
theorem normalizeText_nil_of_space (s : String)
    (h : ∀ c ∈ s.data, isSpaceChar c = true) : normalizeText s = [] := by
  rw [normalizeText]
  simp only [splitWords, List.map_eq_nil_iff]
  rw [List.eq_nil_iff_forall_not_mem]
  intro w hw
  obtain ⟨h1, h2⟩ := splitWordsAux_mem _ [] w (by simp) hw
  obtain ⟨c, hc⟩ := List.exists_mem_of_ne_nil w h1
  obtain ⟨hs, hm⟩ := h2 c hc
  rcases hm with hm | hm
  · simp at hm
  · have hmem := (List.mem_filter.1 hm).1
    obtain ⟨c0, hc0, rfl⟩ := List.mem_map.1 hmem
    have hsp := h c0 hc0
    rw [space_jsToLower c0 hsp, hsp] at hs
    exact Bool.noConfusion hs

/-- Follows the claim's wording: a character is alphanumeric iff it is
an ASCII letter or digit (underscore is not alphanumeric). -/
def isAlphanumericChar (c : Char) : Bool :=
  decide ((97 ≤ c.toNat ∧ c.toNat ≤ 122) ∨ (65 ≤ c.toNat ∧ c.toNat ≤ 90) ∨
    (48 ≤ c.toNat ∧ c.toNat ≤ 57))

/-- C9 counterexample: the input consisting of one underscore survives
normalization as the token `"_"`, whose character is a word character
but not alphanumeric — refuting the claim that every emitted token
consists only of alphanumeric characters. -/
theorem C9_counterexample_underscore :
    normalizeText "_" = ["_"] ∧ isAlphanumericChar '_' = false ∧
      isWordChar '_' = true := by decide

/-- C9 (amended): for every input string, the tokenizer lower-cases it,
removes every character that is not a word character (alphanumeric or
underscore) or whitespace, splits on runs of whitespace and discards
zero-length tokens; every emitted token is non-empty and consists only
of word characters, the concatenation of the tokens is exactly the
surviving characters in their original left-to-right order, and an
empty or whitespace-only input yields the empty sequence. -/
theorem C9_tokenizer_normalizes :
    ∀ (s : String),
      (∀ t ∈ normalizeText s, t.data ≠ [] ∧ ∀ c ∈ t.data, isWordChar c = true) ∧
      ((normalizeText s).map String.data).flatten =
        (s.data.map jsToLower).filter isWordChar ∧
      ((∀ c ∈ s.data, isSpaceChar c = true) → normalizeText s = []) :=
  fun s => ⟨normalizeText_tokens s, normalizeText_flatten s,
    normalizeText_nil_of_space s⟩

/-- A witness for C9 at concrete inputs. -/
theorem C9_tokenizer_normalizes_witness :
    normalizeText " " = [] ∧ ("hello" : String).data ≠ [] :=
  ⟨(C9_tokenizer_normalizes " ").2.2 (by decide),
    ((C9_tokenizer_normalizes "Hello, world!").1 "hello" (by decide)).1⟩

/-- An input with empty character data has no tokens. -/
theorem normalizeText_of_data_nil (s : String) (h : s.data = []) :
    normalizeText s = [] := by
  simp [normalizeText, splitWords, splitWordsAux, h]

/-- Each step of either pass leaves the state unchanged or consumes one
fresh actual-token index: the match count goes up by one and the index,
previously unused and within the actual-token range, is added to the
used set. -/
theorem exactStep_cases (aw : List String) (st : ℕ × List ℕ) (w : String) :
    exactStep aw st w = st ∨
    ∃ idx, idx < aw.length ∧ idx ∉ st.2 ∧
      exactStep aw st w = (st.1 + 1, idx :: st.2) := by
  cases hfind : findIndexFrom
      (fun index actualWord => !decide (index ∈ st.2) && actualWord == w) aw 0 with
  | none => exact Or.inl (by rw [exactStep, hfind])
  | some idx =>
      obtain ⟨-, h2, h3⟩ := findIndexFrom_some _ aw 0 idx hfind
      refine Or.inr ⟨idx, by simpa using h2, ?_, by rw [exactStep, hfind]⟩
      simp only [Bool.and_eq_true, Bool.not_eq_true', decide_eq_false_iff_not] at h3
      exact h3.1

/-- The fuzzy analogue of `exactStep_cases`. -/
theorem fuzzyStep_cases (aw : List String) (total : ℕ) (st : ℕ × List ℕ)
    (w : String) :
    fuzzyStep aw total st w = st ∨
    ∃ idx, idx < aw.length ∧ idx ∉ st.2 ∧
      fuzzyStep aw total st w = (st.1 + 1, idx :: st.2) := by
  by_cases htot : total ≤ st.1
  · exact Or.inl (by rw [fuzzyStep, if_pos htot])
  cases hfind : findIndexFrom
      (fun index actualWord =>
        !decide (index ∈ st.2) && fuzzySimCond w actualWord) aw 0 with
  | none => exact Or.inl (by rw [fuzzyStep, if_neg htot, hfind])
  | some idx =>
      obtain ⟨-, h2, h3⟩ := findIndexFrom_some _ aw 0 idx hfind
      refine Or.inr ⟨idx, by simpa using h2, ?_, by rw [fuzzyStep, if_neg htot, hfind]⟩
      simp only [Bool.and_eq_true, Bool.not_eq_true', decide_eq_false_iff_not] at h3
      exact h3.1

/-- The used-set invariant of the aligner: the match count equals the
size of the used set, the used set has no duplicates, and every used
index points into the actual-token list. -/
def UsedInv (A : ℕ) (st : ℕ × List ℕ) : Prop :=
  st.1 = st.2.length ∧ st.2.Nodup ∧ ∀ j ∈ st.2, j < A

/-- A step of the shape described by `exactStep_cases` and
`fuzzyStep_cases` preserves the used-set invariant. -/
theorem usedInv_step {A : ℕ} {st st' : ℕ × List ℕ}
    (hcase : st' = st ∨ ∃ idx, idx < A ∧ idx ∉ st.2 ∧ st' = (st.1 + 1, idx :: st.2))
    (h : UsedInv A st) : UsedInv A st' := by
  rcases hcase with rfl | ⟨idx, hlt, hfresh, rfl⟩
  · exact h
  · obtain ⟨h1, h2, h3⟩ := h
    refine ⟨by simp [h1], List.nodup_cons.2 ⟨hfresh, h2⟩, fun j hj => ?_⟩
    rcases List.mem_cons.1 hj with rfl | hj
    · exact hlt
    · exact h3 j hj

/-- A fold of invariant-preserving steps preserves the invariant. -/
theorem foldl_preserves {σ α : Type} {P : σ → Prop} (f : σ → α → σ)
    (hf : ∀ st w, P st → P (f st w)) :
    ∀ (l : List α) (st : σ), P st → P (l.foldl f st) := by
  intro l
  induction l with
  | nil => intro st h; exact h
  | cons w l ih => intro st h; exact ih (f st w) (hf st w h)

/-- After both passes the used-set invariant holds, starting from the
empty state. -/
theorem matchState_inv (ews aws : List String) :
    UsedInv aws.length (matchState ews aws) := by
  rw [matchState]
  apply foldl_preserves (fuzzyStep aws ews.length)
    (fun st w h => usedInv_step (fuzzyStep_cases aws ews.length st w) h)
  apply foldl_preserves (exactStep aws)
    (fun st w h => usedInv_step (exactStep_cases aws st w) h)
  exact ⟨rfl, List.nodup_nil, by simp⟩

/-- The final match count never exceeds the number of actual tokens:
every match consumes a distinct actual-token index. -/
theorem matchState_le_actual (ews aws : List String) :
    (matchState ews aws).1 ≤ aws.length := by
  obtain ⟨h1, h2, h3⟩ := matchState_inv ews aws
  rw [h1, ← List.toFinset_card_of_nodup h2]
  calc (matchState ews aws).2.toFinset.card
      ≤ (Finset.range aws.length).card := by
        apply Finset.card_le_card
        intro j hj
        exact Finset.mem_range.2 (h3 j (List.mem_toFinset.1 hj))
    _ = aws.length := Finset.card_range aws.length

/-- The exact pass increases the match count by at most one per
expected token. -/
theorem exact_pass_le (aws : List String) :
    ∀ (l : List String) (st : ℕ × List ℕ),
      (l.foldl (exactStep aws) st).1 ≤ st.1 + l.length := by
  intro l
  induction l with
  | nil => intro st; simp
  | cons w l ih =>
      intro st
      rw [List.foldl_cons]
      have hs := ih (exactStep aws st w)
      have hc : (exactStep aws st w).1 ≤ st.1 + 1 := by
        rcases exactStep_cases aws st w with h | ⟨idx, -, -, h⟩ <;> (rw [h]; try omega)
      simp only [List.length_cons]
      omega

/-- The fuzzy pass never pushes the match count beyond the number of
expected tokens. -/
theorem fuzzy_pass_le (aws : List String) (total : ℕ) :
    ∀ (l : List String) (st : ℕ × List ℕ), st.1 ≤ total →
      (l.foldl (fuzzyStep aws total) st).1 ≤ total := by
  intro l
  induction l with
  | nil => intro st h; exact h
  | cons w l ih =>
      intro st h
      rw [List.foldl_cons]
      apply ih
      by_cases htot : total ≤ st.1
      · rw [fuzzyStep, if_pos htot]; exact h
      · rcases fuzzyStep_cases aws total st w with hc | ⟨idx, -, -, hc⟩ <;>
          rw [hc] <;> omega

/-- The final match count never exceeds the number of expected tokens. -/
theorem matchState_le_expected (ews aws : List String) :
    (matchState ews aws).1 ≤ ews.length := by
  rw [matchState]
  apply fuzzy_pass_le
  have := exact_pass_le aws ews (0, [])
  simpa using this

/-- With no actual tokens, both passes leave the initial state
unchanged. -/
theorem matchState_nil (ews : List String) : matchState ews [] = (0, []) := by
  have hex : ∀ (st : ℕ × List ℕ) (w : String), exactStep [] st w = st := by
    intro st w; rw [exactStep, findIndexFrom]
  have hfz : ∀ (st : ℕ × List ℕ) (w : String),
      fuzzyStep [] ews.length st w = st := by
    intro st w
    rw [fuzzyStep]
    split
    · rfl
    · rw [findIndexFrom]
  have hconst : ∀ (f : ℕ × List ℕ → String → ℕ × List ℕ),
      (∀ st w, f st w = st) → ∀ (l : List String) (st), l.foldl f st = st := by
    intro f hf l
    induction l with
    | nil => intro st; rfl
    | cons w l ih => intro st; rw [List.foldl_cons, hf]; exact ih st
  rw [matchState, hconst _ hex, hconst _ hfz]

/-- `round` is monotone on ℚ. -/
theorem round_mono_q {x y : ℚ} (h : x ≤ y) : round x ≤ round y := by
  rw [round_eq, round_eq]
  exact Int.floor_le_floor (by linarith)

/-- Scanning a list whose leading block fails the predicate at every
index continues the scan past that block. -/
theorem findIndexFrom_append (p : ℕ → String → Bool) :
    ∀ (l1 : List String) (s : ℕ) (l2 : List String),
      (∀ k, k < l1.length → p (s + k) (l1.getD k "") = false) →
      findIndexFrom p (l1 ++ l2) s = findIndexFrom p l2 (s + l1.length) := by
  intro l1
  induction l1 with
  | nil => intro s l2 h; simp [findIndexFrom]
  | cons a l1 ih =>
      intro s l2 h
      rw [List.cons_append, findIndexFrom]
      have h0 : p s a = false := by simpa using h 0 (by simp)
      rw [if_neg (by simp [h0])]
      have hrest : ∀ k, k < l1.length → p (s + 1 + k) (l1.getD k "") = false := by
        intro k hk
        have := h (k + 1) (by simp; omega)
        rw [List.getD_cons_succ] at this
        have harith : s + (k + 1) = s + 1 + k := by omega
        rw [harith] at this
        exact this
      rw [ih (s + 1) l2 hrest]
      have harith : s + 1 + l1.length = s + (a :: l1).length := by simp; omega
      rw [harith]

/-- Running the exact pass of the aligner with the actual tokens equal
to the expected tokens matches every remaining expected token at its own
position: processing the suffix `todo` after having matched the prefix
`done` (whose indices fill the used set) yields a full match count. -/
theorem exact_pass_self (ws : List String) :
    ∀ (todo done : List String) (used : List ℕ),
      ws = done ++ todo →
      (∀ j, j ∈ used ↔ j < done.length) →
      todo.foldl (exactStep ws) (done.length, used) =
        ((done.length + todo.length : ℕ),
          (todo.foldl (exactStep ws) (done.length, used)).2) := by
  intro todo
  induction todo with
  | nil =>
      intro done used hws hmem
      simp
  | cons w todo ih =>
      intro done used hws hmem
      rw [List.foldl_cons]
      have hstep : exactStep ws (done.length, used) w =
          (done.length + 1, done.length :: used) := by
        rw [exactStep]
        have hfind : findIndexFrom
            (fun index actualWord => !decide (index ∈ used) && actualWord == w)
            ws 0 = some done.length := by
          rw [hws, findIndexFrom_append _ done 0 (w :: todo) ?_]
          · rw [findIndexFrom, if_pos ?_]
            · simp
            · have : done.length ∉ used := fun hc => by
                have := (hmem done.length).1 hc
                omega
              simp [this]
          · intro k hk
            have : k ∈ used := (hmem k).2 hk
            simp [this]
        rw [hfind]
      rw [hstep]
      have hws' : ws = (done ++ [w]) ++ todo := by
        rw [hws, List.append_assoc]; rfl
      have hmem' : ∀ j, j ∈ done.length :: used ↔ j < (done ++ [w]).length := by
        intro j
        rw [List.mem_cons, hmem j]
        simp only [List.length_append, List.length_cons, List.length_nil]
        omega
      have hih := ih (done ++ [w]) (done.length :: used) hws' hmem'
      have hlen : (done ++ [w]).length = done.length + 1 := by simp
      rw [hlen] at hih
      rw [hih]
      simp only [List.length_cons, Prod.mk.injEq]
      exact ⟨by omega, trivial⟩

/-- Once the match count has reached the expected-token total, the
fuzzy pass is the identity. -/
theorem fuzzy_pass_saturated (aws : List String) (total : ℕ) :
    ∀ (l : List String) (st : ℕ × List ℕ), total ≤ st.1 →
      l.foldl (fuzzyStep aws total) st = st := by
  intro l
  induction l with
  | nil => intro st _; rfl
  | cons w l ih =>
      intro st h
      rw [List.foldl_cons, fuzzyStep, if_pos h]
      exact ih st h

/-- Matching a token list against itself matches every token. -/
theorem matchState_self (ws : List String) : (matchState ws ws).1 = ws.length := by
  rw [matchState]
  have hex := exact_pass_self ws ws [] [] (by simp) (by simp)
  simp only [List.length_nil, Nat.zero_add] at hex
  rw [hex]
  rw [fuzzy_pass_saturated ws ws.length ws (_, _) (le_refl _)]

/-- `round` fixes the rational literal 100. -/
theorem round_hundred : round ((100 : ℚ)) = 100 := by
  rw [show ((100 : ℚ)) = ((100 : ℕ) : ℚ) by norm_num, round_natCast]
  norm_num

/-- C3: for every pair of input strings the returned score is an
integer between 0 and 100. -/
theorem C3_accuracy_in_range :
    ∀ (e a : String), 0 ≤ calculateTextAccuracy e a ∧ calculateTextAccuracy e a ≤ 100 := by
  intro e a
  rw [calculateTextAccuracy]
  split_ifs with h1 h2
  · norm_num
  · norm_num
  · refine ⟨le_min (by norm_num) ?_, min_le_left _ _⟩
    have hx : (0 : ℚ) ≤ ((matchState (normalizeText e) (normalizeText a)).1 : ℚ) /
        ((normalizeText e).length : ℚ) * 100 := by positivity
    have := round_mono_q hx
    rwa [round_zero] at this

/-- C4: an empty expected or actual string short-circuits to score 0,
before any division can occur. -/
theorem C4_empty_returns_zero :
    ∀ (s : String), calculateTextAccuracy "" s = 0 ∧ calculateTextAccuracy s "" = 0 := by
  intro s
  constructor
  · rw [calculateTextAccuracy, if_pos (Or.inl rfl)]
  · rw [calculateTextAccuracy, if_pos (Or.inr rfl)]

/-- C5 counterexample: `"!!!"` is non-empty and contains no whitespace,
yet `calculateTextAccuracy "!!!" "!!!"` is 0, not 100 — normalization
strips all three characters, the token list is empty, and the
empty-token guard returns 0. -/
theorem C5_counterexample_punctuation :
    ("!!!" : String) ≠ "" ∧
      ("!!!" : String).data.all (fun c => !isSpaceChar c) = true ∧
      calculateTextAccuracy "!!!" "!!!" = 0 := by
  refine ⟨by decide, by decide, ?_⟩
  rw [calculateTextAccuracy, if_neg (by decide), if_pos (by decide)]

/-- C5 (amended): for every string whose token sequence is non-empty
(equivalently, containing at least one word character),
`calculateTextAccuracy s s = 100`: identical token sequences
exact-match at every position. -/
theorem C5_self_accuracy :
    ∀ (s : String), normalizeText s ≠ [] → calculateTextAccuracy s s = 100 := by
  intro s h
  have hE : ¬((normalizeText s).length = 0) := by
    simpa [List.length_eq_zero] using h
  have hdata : ¬(s.data = [] ∨ s.data = []) := by
    intro hd
    rcases hd with hd | hd <;> exact h (normalizeText_of_data_nil s hd)
  rw [calculateTextAccuracy, if_neg hdata, if_neg hE, matchState_self]
  have hq : ((normalizeText s).length : ℚ) ≠ 0 := by exact_mod_cast hE
  rw [div_self hq, one_mul, round_hundred]
  norm_num

/-- A witness for C5 at a concrete input. -/
theorem C5_self_accuracy_witness :
    normalizeText "ab" ≠ [] ∧ calculateTextAccuracy "ab" "ab" = 100 :=
  ⟨by decide, C5_self_accuracy "ab" (by decide)⟩

/-- C10: the match count is bounded by the number of actual tokens
(each match consumes a distinct actual-token index), so when
`0 < A < E` the score is at most `round((A / E) * 100)`. -/
theorem C10_match_count_bounded :
    ∀ (e a : String),
      (matchState (normalizeText e) (normalizeText a)).1 ≤ (normalizeText a).length ∧
      (0 < (normalizeText a).length →
        (normalizeText a).length < (normalizeText e).length →
        calculateTextAccuracy e a ≤
          round (((normalizeText a).length : ℚ) /
            ((normalizeText e).length : ℚ) * 100)) := by
  intro e a
  refine ⟨matchState_le_actual _ _, fun hA hE => ?_⟩
  have hde : e.data ≠ [] := by
    intro hd
    rw [normalizeText_of_data_nil e hd] at hE
    simp at hE
  have hda : a.data ≠ [] := by
    intro hd
    rw [normalizeText_of_data_nil a hd] at hA
    simp at hA
  have hEne : ¬((normalizeText e).length = 0) := by omega
  rw [calculateTextAccuracy, if_neg (by tauto), if_neg hEne]
  have hm := matchState_le_actual (normalizeText e) (normalizeText a)
  refine le_trans (min_le_right _ _) (round_mono_q ?_)
  have hEq : (0 : ℚ) < ((normalizeText e).length : ℚ) := by
    exact_mod_cast Nat.pos_of_ne_zero hEne
  have hmq : ((matchState (normalizeText e) (normalizeText a)).1 : ℚ) ≤
      ((normalizeText a).length : ℚ) := by exact_mod_cast hm
  have hdiv : ((matchState (normalizeText e) (normalizeText a)).1 : ℚ) /
      ((normalizeText e).length : ℚ) ≤
      ((normalizeText a).length : ℚ) / ((normalizeText e).length : ℚ) :=
    (div_le_div_iff_of_pos_right hEq).2 hmq
  exact mul_le_mul_of_nonneg_right hdiv (by norm_num)

/-- A witness for C10 at a concrete input with `A = 2 < E = 3`. -/
theorem C10_match_count_bounded_witness :
    0 < (normalizeText "a b").length ∧
      (normalizeText "a b").length < (normalizeText "a b c").length ∧
      calculateTextAccuracy "a b c" "a b" ≤
        round (((normalizeText "a b").length : ℚ) /
          ((normalizeText "a b c").length : ℚ) * 100) :=
  ⟨by decide, by decide,
    (C10_match_count_bounded "a b c" "a b").2 (by decide) (by decide)⟩

/-- Follows the claim's words (the comparator for C1): the same
two-pass aligner except that the fuzzy pass only processes expected
tokens that failed to match in the exact pass, so each expected token
contributes at most one match.  The exact pass returns the count, the
used set and the list of expected tokens left unmatched. -/
def claimMatchState (ews aws : List String) : ℕ × List ℕ × List String :=
  ews.foldl (fun st w =>
    match findIndexFrom
        (fun index actualWord => !decide (index ∈ st.2.1) && actualWord == w)
        aws 0 with
    | some idx => (st.1 + 1, idx :: st.2.1, st.2.2)
    | none => (st.1, st.2.1, st.2.2 ++ [w])) (0, [], [])

/-- Follows the claim's words: the score formula
`round(min(100, (m / E) * 100))` where each expected token finds at most
one match — the fuzzy pass runs only over the expected tokens left
unmatched by the exact pass. -/
def claimAccuracy (expected actual : String) : ℤ :=
  if expected.data = [] ∨ actual.data = [] then 0
  else if (normalizeText expected).length = 0 then 0
  else
    round (min 100
      ((((claimMatchState (normalizeText expected) (normalizeText actual)).2.2.foldl
          (fuzzyStep (normalizeText actual) (normalizeText expected).length)
          ((claimMatchState (normalizeText expected) (normalizeText actual)).1,
            (claimMatchState (normalizeText expected) (normalizeText actual)).2.1)).1 : ℚ) /
        ((normalizeText expected).length : ℚ) * 100))

/-- C1 counterexample: on expected `"cat dog"` and actual `"cat cot"`
the code returns 100, while the claim's policy (an expected token
already matched in the exact pass never consumes a second actual token
in the fuzzy pass) yields 50: the expected token `"cat"` is matched
exactly with actual `"cat"` and then matched again fuzzily with
`"cot"`, although `"dog"` matches nothing. -/
theorem C1_counterexample_double_count :
    calculateTextAccuracy "cat dog" "cat cot" = 100 ∧
      claimAccuracy "cat dog" "cat cot" = 50 :=
  ⟨of_decide_eq_true (by with_unfolding_all rfl),
    of_decide_eq_true (by with_unfolding_all rfl)⟩

/-- C1 (amended): for every pair of inputs with a non-empty expected
token sequence, the score equals `round(min(100, (m / E) * 100))` where
`E` is the number of expected tokens and `m` is the match count produced
by the two passes; each actual token is consumed at most once and `m`
never exceeds `E` (the fuzzy pass short-circuits at saturation), but an
expected token already matched in the exact pass may consume a second
actual token in the fuzzy pass. -/
theorem C1_score_formula :
    ∀ (e a : String), normalizeText e ≠ [] →
      calculateTextAccuracy e a =
        round (min 100 (((matchState (normalizeText e) (normalizeText a)).1 : ℚ) /
          ((normalizeText e).length : ℚ) * 100)) ∧
      (matchState (normalizeText e) (normalizeText a)).1 ≤ (normalizeText e).length ∧
      (matchState (normalizeText e) (normalizeText a)).1 ≤ (normalizeText a).length := by
  intro e a h
  have hEne : ¬((normalizeText e).length = 0) := by
    simpa [List.length_eq_zero] using h
  have hde : e.data ≠ [] := fun hd => h (normalizeText_of_data_nil e hd)
  refine ⟨?_, matchState_le_expected _ _, matchState_le_actual _ _⟩
  by_cases hda : a.data = []
  · rw [calculateTextAccuracy, if_pos (Or.inr hda)]
    rw [normalizeText_of_data_nil a hda, matchState_nil]
    norm_num
  · rw [calculateTextAccuracy, if_neg (by tauto), if_neg hEne]
    have hm := matchState_le_expected (normalizeText e) (normalizeText a)
    have hEq : (0 : ℚ) < ((normalizeText e).length : ℚ) := by
      exact_mod_cast Nat.pos_of_ne_zero hEne
    have hmq : ((matchState (normalizeText e) (normalizeText a)).1 : ℚ) ≤
        ((normalizeText e).length : ℚ) := by exact_mod_cast hm
    have hx : ((matchState (normalizeText e) (normalizeText a)).1 : ℚ) /
        ((normalizeText e).length : ℚ) * 100 ≤ 100 := by
      have hd1 : ((matchState (normalizeText e) (normalizeText a)).1 : ℚ) /
          ((normalizeText e).length : ℚ) ≤ 1 := by
        rw [div_le_one hEq]; exact hmq
      nlinarith
    have hr : round (((matchState (normalizeText e) (normalizeText a)).1 : ℚ) /
        ((normalizeText e).length : ℚ) * 100) ≤ 100 := by
      have := round_mono_q hx
      rwa [round_hundred] at this
    rw [min_eq_right hx, min_eq_right hr]

/-- A witness for C1 at a concrete input. -/
theorem C1_score_formula_witness :
    normalizeText "a b" ≠ [] ∧
      calculateTextAccuracy "a b" "b x" =
        round (min 100 (((matchState (normalizeText "a b") (normalizeText "b x")).1 : ℚ) /
          ((normalizeText "a b").length : ℚ) * 100)) :=
  ⟨by decide, (C1_score_formula "a b" "b x" (by decide)).1⟩

/-- C2 counterexample: on the spec's own scenario the code returns 80,
not 60. -/
theorem C2_counterexample_not_sixty :
    calculateTextAccuracy "I am fine thank you" "I am find thank u" ≠ 60 ∧
      calculateTextAccuracy "I am fine thank you" "I am find thank u" = 80 :=
  ⟨of_decide_eq_true (by with_unfolding_all rfl),
    of_decide_eq_true (by with_unfolding_all rfl)⟩

/-- C2 (amended): on expected `"I am fine thank you"` and actual
`"I am find thank u"` the tokens are as the claim says and the exact
pass matches "i", "am", "thank"; but similarity("fine", "find") is 0.75
(edit distance 1 over length 4, not 2 over 4), which exceeds the 0.6
threshold, so the fuzzy pass adds that match; "you"/"u" stays below the
threshold at 1/3; the total is 4 of 5 matches and the score is
`round(4/5 * 100) = 80`. -/
theorem C2_scenario_corrected :
    normalizeText "I am fine thank you" = ["i", "am", "fine", "thank", "you"] ∧
      normalizeText "I am find thank u" = ["i", "am", "find", "thank", "u"] ∧
      calculateWordSimilarity "fine" "find" = 3 / 4 ∧
      fuzzySimCond "fine" "find" = true ∧
      calculateWordSimilarity "you" "u" = 1 / 3 ∧
      fuzzySimCond "you" "u" = false ∧
      (matchState (normalizeText "I am fine thank you")
        (normalizeText "I am find thank u")).1 = 4 ∧
      calculateTextAccuracy "I am fine thank you" "I am find thank u" = 80 := by
  refine ⟨by decide, by decide, ?_, ?_, ?_, ?_, ?_, ?_⟩ <;>
    exact of_decide_eq_true (by with_unfolding_all rfl)

end ShadowEn
